import Mathlib

/-!
Shallow embedding of `src/ht.c` (hoathienvu8x/ht): an open-addressing hash
table mapping NUL-terminated string keys to `void*` values, with FNV-1a
hashing, linear probing, growth by doubling, a removal operation, and a
slot-order iterator.

Modelling conventions:
* `size_t` / `uint64_t` arithmetic is `Nat` arithmetic modulo `W64 = 2^64`.
* `void*` values are modelled as `Nat`, with `0` standing for `NULL`.
* a slot's `const char* key` field is `Option String` (`none` = `NULL` =
  empty slot).  `free` has no effect on the bytes a dangling pointer points
  at, so a slot whose key was freed by `ht_remove` (which does not clear the
  pointer, src/ht.c:234) keeps its string content in the model.
* allocation failure of `calloc` in `ht_expand` and of `strdup` in
  `ht_set_entry` is modelled by an explicit oracle `AllocOracle`; the
  all-allocations-succeed instantiation is `allocOk`.
* the mutex only serializes operations; in this sequential model each
  operation is a pure function on the table state.
* C loops are modelled as fuel-indexed recursive functions; the fuel given
  at each call site is provably enough except where the C loop itself does
  not terminate (`ht_remove`'s scan, which never advances its index:
  src/ht.c:232-239), where running out of fuel for every fuel value models
  divergence.
-/

namespace HT

/-- Modulus of `size_t` and `uint64_t` arithmetic: 2 ^ 64. -/
def W64 : Nat := 18446744073709551616

/-- Model of `void*` values; `0` models the NULL pointer. -/
abbrev Value := Nat

/-- Hash table entry (src/ht.c:12-15).  `key = none` models the NULL key
pointer marking an empty slot. -/
structure ht_entry where
  key : Option String
  value : Value
deriving Repr, DecidableEq, Inhabited

/-- Hash table structure (src/ht.c:18-23).  The `entries` pointer together
with the separately stored `capacity` become a list of entries plus the
`capacity` field; the mutex is dropped (sequential model). -/
structure ht where
  entries : List ht_entry
  capacity : Nat
  length : Nat
deriving Repr, DecidableEq

/-- INITIAL_CAPACITY (src/ht.c:25). -/
def INITIAL_CAPACITY : Nat := 16

/-- FNV_OFFSET (src/ht.c:62). -/
def FNV_OFFSET : Nat := 14695981039346656037

/-- FNV_PRIME (src/ht.c:63). -/
def FNV_PRIME : Nat := 1099511628211

/-- hash_key (src/ht.c:67-74): 64-bit FNV-1a over the bytes of the key.
For the ASCII keys used throughout, a character's code point is exactly the
byte the C loop reads. -/
def hash_key (key : String) : Nat :=
  key.data.foldl (fun h c => ((h ^^^ c.toNat) * FNV_PRIME) % W64) FNV_OFFSET

/-- ht_create (src/ht.c:27-49), in the run where all allocations succeed:
capacity 16, length 0, all slots zeroed (`calloc`). -/
def ht_create : ht :=
  { entries := List.replicate INITIAL_CAPACITY default
    capacity := INITIAL_CAPACITY
    length := 0 }

/-- The starting slot `(size_t)(hash & (capacity - 1))` computed by
ht_get (src/ht.c:79), ht_set_entry (src/ht.c:108) and ht_remove
(src/ht.c:226). -/
def homeIndex (capacity : Nat) (key : String) : Nat :=
  hash_key key &&& (capacity - 1)

/-- Outcome of the probe loop shared (textually) by ht_get (src/ht.c:84-98)
and ht_set_entry (src/ht.c:112-125): the first matching slot, or the fact
that an empty slot was reached, or a full wrap back to the starting index
with neither. -/
inductive ProbeOutcome where
  | foundAt (i : Nat)
  | empty
  | full
deriving Repr, DecidableEq

/-- The probe loop body: examine slot `i`; stop on an empty slot, stop on a
key match, otherwise step to `i+1` wrapping at `capacity` and stop with
`full` upon returning to the starting `index`.  The loop examines at most
`capacity` slots before the wrap check fires, so fuel `capacity` is enough;
the fuel-0 branch is unreachable from `ht_probe`. -/
def probeLoop (entries : List ht_entry) (capacity : Nat) (key : String)
    (index : Nat) : Nat → Nat → ProbeOutcome
  | _, 0 => .full
  | i, fuel+1 =>
    match (entries.getD i default).key with
    | none => .empty
    | some k =>
      if k = key then .foundAt i
      else
        let i2 := if i + 1 ≥ capacity then 0 else i + 1
        if i2 = index then .full else probeLoop entries capacity key index i2 fuel

/-- The probe as started by ht_get and ht_set_entry: from the home slot of
`key`, with fuel `capacity`. -/
def ht_probe (entries : List ht_entry) (capacity : Nat) (key : String) :
    ProbeOutcome :=
  probeLoop entries capacity key (homeIndex capacity key)
    (homeIndex capacity key) capacity

/-- ht_get (src/ht.c:76-101): probe from the home slot; on a key match
return that slot's value, otherwise (empty slot reached, or full wrap)
return NULL, i.e. `none`. -/
def ht_get (t : ht) (key : String) : Option Value :=
  match ht_probe t.entries t.capacity key with
  | .foundAt i => some (t.entries.getD i default).value
  | .empty => none
  | .full => none

/-- Allocation oracle: whether `calloc` in ht_expand (src/ht.c:148) and
`strdup` in ht_set_entry (src/ht.c:129) fail in the run being modelled. -/
structure AllocOracle where
  callocFails : Bool
  strdupFails : Bool
deriving Repr, DecidableEq

/-- The run in which every allocation succeeds. -/
def allocOk : AllocOracle := ⟨false, false⟩

/-- ht_set_entry (src/ht.c:104-138).  Returns the updated entries, the
updated `*plength` (when `plength` was non-NULL), and whether the returned
`const char*` was non-NULL (success).  On a key match the value of the
matching slot `i` is overwritten in place (src/ht.c:115); on reaching an
empty slot the new entry is written at `entries[index]` — the home slot,
not the empty slot the probe found (src/ht.c:135-136).  With a non-NULL
`plength` the key is `strdup`ed (which can fail) and `(*plength)++`
(src/ht.c:128-134); with a NULL `plength` (the ht_expand path) the key
pointer is reused as-is and no length is touched. -/
def ht_set_entryA (o : AllocOracle) (entries : List ht_entry) (capacity : Nat)
    (key : String) (value : Value) (plength : Option Nat) :
    List ht_entry × Option Nat × Bool :=
  let index := homeIndex capacity key
  match ht_probe entries capacity key with
  | .foundAt i => (entries.set i { entries.getD i default with value := value },
      plength, true)
  | .full => (entries, plength, false)
  | .empty =>
    match plength with
    | some len =>
      if o.strdupFails then (entries, plength, false)
      else (entries.set index ⟨some key, value⟩, some ((len + 1) % W64), true)
    | none => (entries.set index ⟨some key, value⟩, none, true)

/-- ht_set_entry in the run where all allocations succeed. -/
def ht_set_entry (entries : List ht_entry) (capacity : Nat) (key : String)
    (value : Value) (plength : Option Nat) : List ht_entry × Option Nat × Bool :=
  ht_set_entryA allocOk entries capacity key value plength

/-- The re-insertion loop of ht_expand (src/ht.c:154-159) run over the
first `n` old slots: every non-empty slot of the old array is re-inserted,
in slot order, into the zeroed new array via ht_set_entry with a NULL
`plength` (the return value of ht_set_entry is ignored there, matching the
C source). -/
def expandFold (o : AllocOracle) (t : ht) (new_capacity : Nat) (n : Nat) :
    List ht_entry :=
  (List.range n).foldl
    (fun acc i =>
      match (t.entries.getD i default).key with
      | none => acc
      | some k =>
        (ht_set_entryA o acc new_capacity k (t.entries.getD i default).value
          none).1)
    (List.replicate new_capacity default)

/-- ht_expand (src/ht.c:142-166): double the capacity (size_t arithmetic,
failing if the doubling wrapped below the old capacity, src/ht.c:145), fail
if `calloc` fails, otherwise re-insert every non-empty old slot into the
zeroed new array (`expandFold` over all `capacity` old slots).  `length` is
not touched. -/
def ht_expandA (o : AllocOracle) (t : ht) : Option ht :=
  let new_capacity := (t.capacity * 2) % W64
  if new_capacity < t.capacity then none
  else if o.callocFails then none
  else
    some { t with entries := expandFold o t new_capacity t.capacity
                  capacity := new_capacity }

/-- ht_expand in the run where all allocations succeed. -/
def ht_expand (t : ht) : Option ht := ht_expandA allocOk t

/-- State of the table at the moment ht_set reaches its probe phase
(src/ht.c:184, after the conditional expand of src/ht.c:176-181); `none`
when the expand failed and ht_set aborts with -1. -/
def probeStartA (o : AllocOracle) (t : ht) : Option ht :=
  if t.capacity / 2 ≤ t.length then ht_expandA o t else some t

/-- Check whether the table state at the start of ht_set's probe phase
(after the conditional expand) violates the documented load-factor bound
`length ≤ capacity / 2`; `false` when the expand failed and no probe phase
is reached. -/
def probePhaseOverload (o : AllocOracle) (t : ht) : Bool :=
  match probeStartA o t with
  | some t1 => decide (t1.capacity / 2 < t1.length)
  | none => false

/-- ht_set (src/ht.c:168-189): reject a NULL value with -1; expand first
when `length >= capacity / 2`, aborting with -1 and an unchanged table when
the expand fails; then ht_set_entry with `plength = &length`, returning 0
iff it returned a non-NULL key. -/
def ht_setA (o : AllocOracle) (t : ht) (key : String) (value : Value) :
    ht × Int :=
  if value = 0 then (t, -1)
  else
    match probeStartA o t with
    | none => (t, -1)
    | some t1 =>
      let r := ht_set_entryA o t1.entries t1.capacity key value (some t1.length)
      ({ t1 with entries := r.1, length := r.2.1.getD t1.length },
        if r.2.2 then 0 else -1)

/-- ht_set in the run where all allocations succeed. -/
def ht_set (t : ht) (key : String) (value : Value) : ht × Int :=
  ht_setA allocOk t key value

/-- ht_length (src/ht.c:191-193). -/
def ht_length (t : ht) : Nat := t.length

/-- Iterator (ht.h / src/ht.c:195-200).  The `_table` pointer becomes an
explicit argument of `ht_next`; `key`/`value` are the fields ht_next fills
in (left zeroed at creation, where C leaves them uninitialized). -/
structure hti where
  key : Option String
  value : Value
  idx : Nat
deriving Repr, DecidableEq

/-- ht_iterator (src/ht.c:195-200): index 0. -/
def ht_iterator : hti := ⟨none, 0, 0⟩

/-- The scan loop of ht_next (src/ht.c:206-217): from index `i`, while
`i < capacity`, step past each slot, stopping at the first slot with a
non-NULL key.  Returns the final index and that slot if one was found.
The loop runs at most `capacity - i + 1` times, so fuel `capacity + 1` is
enough at the call site. -/
def ht_nextLoop (t : ht) : Nat → Nat → Nat × Option ht_entry
  | i, 0 => (i, none)
  | i, fuel+1 =>
    if i < t.capacity then
      match (t.entries.getD i default).key with
      | some _ => (i + 1, some (t.entries.getD i default))
      | none => ht_nextLoop t (i + 1) fuel
    else (i, none)

/-- ht_next (src/ht.c:202-220): scan for the next non-empty slot; on
success record its key/value in the iterator and return true, otherwise
return false with the iterator exhausted. -/
def ht_next (t : ht) (it : hti) : hti × Bool :=
  match ht_nextLoop t it.idx (t.capacity + 1) with
  | (i2, some e) => ({ key := e.key, value := e.value, idx := i2 }, true)
  | (i2, none) => ({ it with idx := i2 }, false)

/-- Decrement of a `size_t` counter: `n - 1` modulo 2^64, wrapping to
`2^64 - 1` at 0 (src/ht.c:235 `table->length--`). -/
def sizetDec (n : Nat) : Nat := (n + (W64 - 1)) % W64

/-- The while loop of ht_remove (src/ht.c:232-239).  The loop keeps
re-examining slot `index`: its body never advances the index.  Exiting the
loop (empty slot) falls through to `return -1` (src/ht.c:241); a key match
frees the key — leaving the bytes and the slot's key pointer in place —
decrements `length`, and returns 0.  An occupied non-matching slot makes
the loop spin forever, modelled by recursion on fuel alone: every fuel
value is exhausted. -/
def ht_removeLoop (t : ht) (key : String) (index : Nat) :
    Nat → Option (ht × Int)
  | 0 => none
  | fuel+1 =>
    match (t.entries.getD index default).key with
    | none => some (t, -1)
    | some k =>
      if k = key then some ({ t with length := sizetDec t.length }, 0)
      else ht_removeLoop t key index fuel

/-- ht_remove (src/ht.c:222-242): if the home slot is empty return -1
immediately (src/ht.c:228-231), otherwise run the (non-advancing) scan
loop.  `none` means the given fuel was exhausted; the loop state never
changes, so `none` for every fuel models the real divergence. -/
def ht_remove (t : ht) (key : String) (fuel : Nat) : Option (ht × Int) :=
  let index := homeIndex t.capacity key
  match (t.entries.getD index default).key with
  | none => some (t, -1)
  | some _ => ht_removeLoop t key index fuel

/-- Divergence of ht_remove: no amount of fuel makes it return. -/
def ht_removeDiverges (t : ht) (key : String) : Prop :=
  ∀ fuel, ht_remove t key fuel = none

/-- Capacity shape: a power of two that is at least 16.  The capacity
starts at `INITIAL_CAPACITY = 16 = 2^4` and only ever doubles, so it is
always of the form `2^(j+4)`. -/
def capOk (c : Nat) : Prop := ∃ j, c = 2 ^ (j + 4)

/-- Home-slot property: every occupied slot holds a key whose home index
for the current capacity is exactly that slot. -/
def homeInv (t : ht) : Prop :=
  ∀ i k, (t.entries.getD i default).key = some k → homeIndex t.capacity k = i

/-- Structural invariant maintained by every operation. -/
structure InvS (t : ht) : Prop where
  size_eq : t.entries.length = t.capacity
  cap_ok : capOk t.capacity
  cap_lt : t.capacity < W64
  home : homeInv t

/-- Tables reachable from ht_create through the mutating API: ht_set under
any allocation behavior, and ht_remove calls that return. -/
inductive Reach : ht → Prop where
  | create : Reach ht_create
  | set (t : ht) (o : AllocOracle) (key : String) (value : Value) :
      Reach t → Reach (ht_setA o t key value).1
  | remove (t : ht) (key : String) (fuel : Nat) (t' : ht) (code : Int) :
      Reach t → ht_remove t key fuel = some (t', code) → Reach t'

end HT

/-! ### Basic facts about slots, masks and probing -/

namespace HT

theorem getD_set_self {l : List ht_entry} {i : Nat} {e : ht_entry}
    (h : i < l.length) : (l.set i e).getD i default = e := by
  simp [List.getD_eq_getElem?_getD, List.getElem?_set, h]

theorem getD_set_ne {l : List ht_entry} (i j : Nat) (e : ht_entry)
    (h : i ≠ j) : (l.set i e).getD j default = l.getD j default := by
  simp [List.getD_eq_getElem?_getD, List.getElem?_set, h]

theorem getD_replicate {n i : Nat} :
    (List.replicate n (default : ht_entry)).getD i default = default := by
  simp only [List.getD_eq_getElem?_getD, List.getElem?_replicate]
  split <;> rfl

theorem homeIndex_lt (c : Nat) (key : String) (hc : 0 < c) :
    homeIndex c key < c :=
  Nat.lt_of_le_of_lt Nat.and_le_right (Nat.sub_lt hc Nat.one_pos)

theorem homeIndex_two_pow (m : Nat) (key : String) :
    homeIndex (2 ^ m) key = hash_key key % 2 ^ m :=
  Nat.and_pow_two_sub_one_eq_mod _ _

/-- Doubling a power-of-two capacity refines the home index: the home for
capacity `2^m` is the home for capacity `2^(m+1)` reduced mod `2^m`. -/
theorem homeIndex_double (m : Nat) (key : String) :
    homeIndex (2 ^ (m + 1)) key % 2 ^ m = homeIndex (2 ^ m) key := by
  rw [homeIndex_two_pow, homeIndex_two_pow]
  exact Nat.mod_mod_of_dvd _ ⟨2, by ring⟩

/-- A probe that reports `foundAt j` really stopped at a slot whose key is
the probed key, and never left the index range when it started inside. -/
theorem probeLoop_foundAt {entries : List ht_entry} {capacity : Nat}
    {key : String} {index : Nat} {fuel : Nat} :
    ∀ {i j : Nat}, probeLoop entries capacity key index i fuel = .foundAt j →
      (entries.getD j default).key = some key ∧ (i < capacity → j < capacity) := by
  induction fuel with
  | zero => intro i j h; simp [probeLoop] at h
  | succ fuel ih =>
    intro i j h
    rw [probeLoop] at h
    cases hk : (entries.getD i default).key with
    | none => simp only [hk] at h; exact absurd h (by simp)
    | some k =>
      simp only [hk] at h
      by_cases hkey : k = key
      · rw [if_pos hkey] at h
        cases h
        exact ⟨hkey ▸ hk, fun hi => hi⟩
      · rw [if_neg hkey] at h
        by_cases hw : (if i + 1 ≥ capacity then 0 else i + 1) = index
        · rw [if_pos hw] at h; exact absurd h (by simp)
        · rw [if_neg hw] at h
          refine ⟨(ih h).1, fun hi => (ih h).2 ?_⟩
          by_cases hc : i + 1 ≥ capacity
          · simpa [hc] using Nat.lt_of_le_of_lt (Nat.zero_le i) hi
          · simpa [hc] using Nat.lt_of_not_le hc

/-- A probe whose starting slot is empty reports `empty` at once. -/
theorem probeLoop_empty_start {entries : List ht_entry} {capacity : Nat}
    {key : String} {index i fuel : Nat}
    (h : (entries.getD i default).key = none) (hf : 0 < fuel) :
    probeLoop entries capacity key index i fuel = .empty := by
  cases fuel with
  | zero => exact absurd hf (by simp)
  | succ fuel => rw [probeLoop]; simp only [h]

/-- A probe whose starting slot already holds the probed key stops there. -/
theorem probeLoop_found_start {entries : List ht_entry} {capacity : Nat}
    {key : String} {index i fuel : Nat}
    (h : (entries.getD i default).key = some key) (hf : 0 < fuel) :
    probeLoop entries capacity key index i fuel = .foundAt i := by
  cases fuel with
  | zero => exact absurd hf (by simp)
  | succ fuel =>
    rw [probeLoop]
    split
    · rename_i heq
      rw [h] at heq
      exact Option.noConfusion heq
    · rename_i k heq
      rw [h] at heq
      cases Option.some.inj heq
      rw [if_pos rfl]

theorem ht_probe_foundAt {entries : List ht_entry} {capacity : Nat}
    {key : String} {j : Nat} (hc : 0 < capacity)
    (h : ht_probe entries capacity key = .foundAt j) :
    (entries.getD j default).key = some key ∧ j < capacity :=
  ⟨(probeLoop_foundAt h).1,
    (probeLoop_foundAt h).2 (homeIndex_lt capacity key hc)⟩

theorem ht_probe_empty_of_home {entries : List ht_entry} {capacity : Nat}
    {key : String} (hc : 0 < capacity)
    (h : (entries.getD (homeIndex capacity key) default).key = none) :
    ht_probe entries capacity key = .empty :=
  probeLoop_empty_start h hc

theorem ht_probe_found_of_home {entries : List ht_entry} {capacity : Nat}
    {key : String} (hc : 0 < capacity)
    (h : (entries.getD (homeIndex capacity key) default).key = some key) :
    ht_probe entries capacity key = .foundAt (homeIndex capacity key) :=
  probeLoop_found_start h hc

end HT

/-! ### The structural invariant of reachable tables -/

namespace HT

theorem capOk_pos {c : Nat} (h : capOk c) : 0 < c := by
  obtain ⟨j, rfl⟩ := h; exact Nat.pos_pow_of_pos _ (by norm_num)

theorem capOk_double {c : Nat} (h : capOk c) : capOk (2 * c) := by
  obtain ⟨j, rfl⟩ := h
  exact ⟨j + 1, by ring⟩

theorem invS_create : InvS ht_create := by
  refine ⟨by decide, ⟨0, by decide⟩, by decide, ?_⟩
  intro i k hk
  rw [show ht_create.entries = List.replicate 16 default from rfl,
    getD_replicate] at hk
  exact Option.noConfusion hk

end HT

/-! ### Branch lemmas for ht_set_entry and the expand fold -/

namespace HT

theorem ht_set_entryA_found {o : AllocOracle} {entries : List ht_entry}
    {capacity : Nat} {key : String} {value : Value} {plength : Option Nat}
    {i : Nat} (h : ht_probe entries capacity key = .foundAt i) :
    ht_set_entryA o entries capacity key value plength =
      (entries.set i { entries.getD i default with value := value },
        plength, true) := by
  simp only [ht_set_entryA, h]

theorem ht_set_entryA_full {o : AllocOracle} {entries : List ht_entry}
    {capacity : Nat} {key : String} {value : Value} {plength : Option Nat}
    (h : ht_probe entries capacity key = .full) :
    ht_set_entryA o entries capacity key value plength =
      (entries, plength, false) := by
  simp only [ht_set_entryA, h]

theorem ht_set_entryA_empty_none {o : AllocOracle} {entries : List ht_entry}
    {capacity : Nat} {key : String} {value : Value}
    (h : ht_probe entries capacity key = .empty) :
    ht_set_entryA o entries capacity key value none =
      (entries.set (homeIndex capacity key) ⟨some key, value⟩, none, true) := by
  simp only [ht_set_entryA, h]

theorem ht_set_entryA_empty_some {o : AllocOracle} {entries : List ht_entry}
    {capacity : Nat} {key : String} {value : Value} {len : Nat}
    (h : ht_probe entries capacity key = .empty) :
    ht_set_entryA o entries capacity key value (some len) =
      if o.strdupFails then (entries, some len, false)
      else (entries.set (homeIndex capacity key) ⟨some key, value⟩,
        some ((len + 1) % W64), true) := by
  simp only [ht_set_entryA, h]

theorem expandFold_succ_none {o : AllocOracle} {t : ht} {c2 n : Nat}
    (h : (t.entries.getD n default).key = none) :
    expandFold o t c2 (n + 1) = expandFold o t c2 n := by
  unfold expandFold
  rw [List.range_succ, List.foldl_append]
  simp only [List.foldl_cons, List.foldl_nil, h]

theorem expandFold_succ_some {o : AllocOracle} {t : ht} {c2 n : Nat}
    {k : String} (h : (t.entries.getD n default).key = some k) :
    expandFold o t c2 (n + 1) =
      (ht_set_entryA o (expandFold o t c2 n) c2 k
        (t.entries.getD n default).value none).1 := by
  unfold expandFold
  rw [List.range_succ, List.foldl_append]
  simp only [List.foldl_cons, List.foldl_nil, h]

end HT

/-! ### Characterization of the expand re-insertion loop -/

namespace HT

/-- Under the home-slot invariant, after the expand loop has processed the
first `n` old slots: the new array keeps its size; an occupied new slot `h`
is a copy of old slot `h % capacity`, already processed, placed at its new
home; and every processed occupied old slot has been copied to its key's
new home. -/
theorem expandFold_char (o : AllocOracle) (t : ht) (m : Nat)
    (hc : t.capacity = 2 ^ m) (hhome : homeInv t) :
    ∀ n,
      (expandFold o t (2 ^ (m + 1)) n).length = 2 ^ (m + 1) ∧
      (∀ h k, ((expandFold o t (2 ^ (m + 1)) n).getD h default).key = some k →
        h % 2 ^ m < n ∧
        (expandFold o t (2 ^ (m + 1)) n).getD h default =
          t.entries.getD (h % 2 ^ m) default ∧
        homeIndex (2 ^ (m + 1)) k = h ∧
        (t.entries.getD (h % 2 ^ m) default).key = some k) ∧
      (∀ i, i < n → ∀ k, (t.entries.getD i default).key = some k →
        (expandFold o t (2 ^ (m + 1)) n).getD (homeIndex (2 ^ (m + 1)) k)
          default = t.entries.getD i default) := by
  intro n
  induction n with
  | zero =>
    refine ⟨by simp [expandFold], ?_, fun i hi => absurd hi (Nat.not_lt_zero i)⟩
    intro h k hk
    rw [show expandFold o t (2 ^ (m + 1)) 0
        = List.replicate (2 ^ (m + 1)) default from rfl, getD_replicate] at hk
    exact Option.noConfusion hk
  | succ n ih =>
    obtain ⟨ihL, ih2, ih3⟩ := ih
    cases hk : (t.entries.getD n default).key with
    | none =>
      rw [expandFold_succ_none hk]
      refine ⟨ihL, ?_, ?_⟩
      · intro h k hsome
        obtain ⟨h1, h2, h3, h4⟩ := ih2 h k hsome
        exact ⟨Nat.lt_succ_of_lt h1, h2, h3, h4⟩
      · intro i hi k hold
        rcases Nat.lt_succ_iff_lt_or_eq.mp hi with hi' | rfl
        · exact ih3 i hi' k hold
        · rw [hk] at hold; exact Option.noConfusion hold
    | some k =>
      have hc2pos : 0 < 2 ^ (m + 1) := Nat.pos_pow_of_pos _ (by norm_num)
      -- the key of old slot n sits at its old home, which is n
      have hkn : homeIndex t.capacity k = n := hhome n k hk
      -- the new home of that key reduces to n modulo the old capacity
      have hmod : homeIndex (2 ^ (m + 1)) k % 2 ^ m = n := by
        rw [homeIndex_double, ← hc, hkn]
      -- the target slot of the re-insertion is still empty
      have hempty : ((expandFold o t (2 ^ (m + 1)) n).getD
          (homeIndex (2 ^ (m + 1)) k) default).key = none := by
        cases hcase : ((expandFold o t (2 ^ (m + 1)) n).getD
            (homeIndex (2 ^ (m + 1)) k) default).key with
        | none => rfl
        | some k2 =>
          obtain ⟨h1, _, _, _⟩ := ih2 _ k2 hcase
          rw [hmod] at h1
          exact absurd h1 (Nat.lt_irrefl n)
      have hprobe : ht_probe (expandFold o t (2 ^ (m + 1)) n) (2 ^ (m + 1)) k
          = .empty := ht_probe_empty_of_home hc2pos hempty
      rw [expandFold_succ_some hk, ht_set_entryA_empty_none hprobe]
      -- the written entry is exactly the old slot
      have hslot : (⟨some k, (t.entries.getD n default).value⟩ : ht_entry)
          = t.entries.getD n default := by
        rw [← hk]
      have hlt : homeIndex (2 ^ (m + 1)) k
          < (expandFold o t (2 ^ (m + 1)) n).length := by
        rw [ihL]; exact homeIndex_lt _ _ hc2pos
      refine ⟨by rw [List.length_set, ihL], ?_, ?_⟩
      · intro h k2 hsome
        by_cases hh : homeIndex (2 ^ (m + 1)) k = h
        · subst hh
          rw [getD_set_self hlt] at hsome ⊢
          cases Option.some.inj hsome
          refine ⟨by rw [hmod]; exact Nat.lt_succ_self n, ?_, rfl, ?_⟩
          · rw [hmod, hslot]
          · rw [hmod, hk]
        · rw [getD_set_ne _ _ _ hh] at hsome ⊢
          obtain ⟨h1, h2, h3, h4⟩ := ih2 h k2 hsome
          exact ⟨Nat.lt_succ_of_lt h1, h2, h3, h4⟩
      · intro i hi k2 hold
        rcases Nat.lt_succ_iff_lt_or_eq.mp hi with hi' | rfl
        · have hne : homeIndex (2 ^ (m + 1)) k ≠ homeIndex (2 ^ (m + 1)) k2 := by
            intro heq
            have hki : homeIndex t.capacity k2 = i := hhome i k2 hold
            have : homeIndex (2 ^ (m + 1)) k2 % 2 ^ m = i := by
              rw [homeIndex_double, ← hc, hki]
            rw [← heq, hmod] at this
            exact absurd this.symm (Nat.ne_of_lt hi')
          rw [getD_set_ne _ _ _ hne]
          exact ih3 i hi' k2 hold
        · rw [hk] at hold
          cases Option.some.inj hold
          rw [getD_set_self hlt, hslot]

end HT

/-! ### The specification of ht_expand under the invariant -/

namespace HT

theorem getD_of_le {l : List ht_entry} {i : Nat} (h : l.length ≤ i) :
    l.getD i default = default := by
  simp [List.getD_eq_getElem?_getD, List.getElem?_eq_none h]

theorem ht_expandA_some {o : AllocOracle} {t t' : ht} (hlt : t.capacity < W64)
    (h : ht_expandA o t = some t') :
    t.capacity * 2 < W64 ∧ o.callocFails = false ∧
    t'.entries = expandFold o t (t.capacity * 2) t.capacity ∧
    t'.capacity = t.capacity * 2 ∧ t'.length = t.length := by
  have hW : W64 = 18446744073709551616 := rfl
  simp only [ht_expandA] at h
  by_cases hw : t.capacity * 2 < W64
  · rw [Nat.mod_eq_of_lt hw, if_neg (by omega)] at h
    cases hcalloc : o.callocFails
    · rw [hcalloc] at h
      simp only [Bool.false_eq_true, if_false] at h
      cases Option.some.inj h
      exact ⟨hw, rfl, rfl, rfl, rfl⟩
    · rw [hcalloc] at h
      simp only [if_true] at h
      exact Option.noConfusion h
  · exfalso
    have hlt' : t.capacity < 18446744073709551616 := hlt
    have hw' : ¬t.capacity * 2 < 18446744073709551616 := hw
    have hmod : t.capacity * 2 % W64
        = t.capacity * 2 - 18446744073709551616 := by
      rw [hW]; omega
    rw [hmod, if_pos (by omega)] at h
    exact Option.noConfusion h

/-- What a successful ht_expand does to a table satisfying the structural
invariant: the capacity doubles, the length is untouched, the invariant is
preserved, and every occupied old slot reappears, unchanged, at its key's
home slot for the doubled capacity. -/
theorem ht_expand_spec {o : AllocOracle} {t t' : ht} (hInv : InvS t)
    (h : ht_expandA o t = some t') :
    t'.capacity = t.capacity * 2 ∧ t'.length = t.length ∧ InvS t' ∧
    (∀ i k, (t.entries.getD i default).key = some k →
      t'.entries.getD (homeIndex t'.capacity k) default
        = t.entries.getD i default) := by
  obtain ⟨j, hj⟩ := hInv.cap_ok
  obtain ⟨hw, hcalloc, hent, hcap, hlen⟩ := ht_expandA_some hInv.cap_lt h
  have hpow : t.capacity * 2 = 2 ^ (j + 4 + 1) := by rw [hj]; ring
  obtain ⟨char1, char2, char3⟩ :=
    expandFold_char o t (j + 4) hj hInv.home t.capacity
  refine ⟨hcap, hlen, ⟨?_, ⟨j + 1, by rw [hcap, hpow]⟩,
    by rw [hcap]; exact hw, ?_⟩, ?_⟩
  · rw [hent, hcap, hpow]
    exact char1
  · intro i k hk
    rw [hent, hpow] at hk
    obtain ⟨_, _, h3, _⟩ := char2 i k hk
    rw [hcap, hpow]
    exact h3
  · intro i k hk
    have hi : i < t.capacity := by
      by_contra hge
      rw [getD_of_le (hInv.size_eq ▸ Nat.le_of_not_lt hge)] at hk
      exact Option.noConfusion hk
    rw [hent, hcap, hpow]
    exact char3 i hi k hk

end HT

/-! ### Case analysis of ht_set -/

namespace HT

theorem ht_setA_found {o : AllocOracle} {t t1 : ht} {key : String}
    {value : Value} {i : Nat} (hv : value ≠ 0)
    (hp : probeStartA o t = some t1)
    (hf : ht_probe t1.entries t1.capacity key = .foundAt i) :
    ht_setA o t key value = ({ t1 with entries := t1.entries.set i ({ t1.entries.getD i default with value := value }) }, 0) := by
  simp only [ht_setA, if_neg hv, hp, ht_set_entryA_found hf, Option.getD_some]
  rfl

theorem ht_setA_full {o : AllocOracle} {t t1 : ht} {key : String}
    {value : Value} (hv : value ≠ 0)
    (hp : probeStartA o t = some t1)
    (hf : ht_probe t1.entries t1.capacity key = .full) :
    ht_setA o t key value = (t1, -1) := by
  simp only [ht_setA, if_neg hv, hp, ht_set_entryA_full hf, Option.getD_some]
  rfl

theorem ht_setA_insert {o : AllocOracle} {t t1 : ht} {key : String}
    {value : Value} (hv : value ≠ 0)
    (hp : probeStartA o t = some t1)
    (he : ht_probe t1.entries t1.capacity key = .empty)
    (hsd : o.strdupFails = false) :
    ht_setA o t key value =
      ({ t1 with
          entries := t1.entries.set (homeIndex t1.capacity key)
            ⟨some key, value⟩,
          length := (t1.length + 1) % W64 }, 0) := by
  simp only [ht_setA, if_neg hv, hp, ht_set_entryA_empty_some he, hsd,
    Bool.false_eq_true, if_false, Option.getD_some]
  rfl

theorem ht_setA_nomem {o : AllocOracle} {t t1 : ht} {key : String}
    {value : Value} (hv : value ≠ 0)
    (hp : probeStartA o t = some t1)
    (he : ht_probe t1.entries t1.capacity key = .empty)
    (hsd : o.strdupFails = true) :
    ht_setA o t key value = (t1, -1) := by
  simp only [ht_setA, if_neg hv, hp, ht_set_entryA_empty_some he, hsd,
    if_true, Option.getD_some]
  rfl

theorem invS_probeStart {o : AllocOracle} {t t1 : ht} (hInv : InvS t)
    (hp : probeStartA o t = some t1) :
    InvS t1 ∧ t1.length = t.length ∧
      (t1.capacity = t.capacity ∨ t1.capacity = t.capacity * 2) := by
  unfold probeStartA at hp
  by_cases hc : t.capacity / 2 ≤ t.length
  · rw [if_pos hc] at hp
    obtain ⟨hcap, hlen, hinv, _⟩ := ht_expand_spec hInv hp
    exact ⟨hinv, hlen, Or.inr hcap⟩
  · rw [if_neg hc] at hp
    cases Option.some.inj hp
    exact ⟨hInv, rfl, Or.inl rfl⟩

theorem invS_update {t1 : ht} {E : List ht_entry} {len : Nat}
    (hInv1 : InvS t1) (hlen : E.length = t1.entries.length)
    (hhome : ∀ j k, (E.getD j default).key = some k →
      homeIndex t1.capacity k = j) :
    InvS { entries := E, capacity := t1.capacity, length := len } :=
  ⟨by rw [show ({ entries := E, capacity := t1.capacity, length := len }
      : ht).entries = E from rfl, hlen]; exact hInv1.size_eq,
    hInv1.cap_ok, hInv1.cap_lt, hhome⟩

/-- Every ht_set call (under any allocation behavior) preserves the
structural invariant: new keys are only ever written at their home slot. -/
theorem invS_setA (o : AllocOracle) (t : ht) (key : String) (value : Value)
    (hInv : InvS t) : InvS (ht_setA o t key value).1 := by
  by_cases hv : value = 0
  · simp only [ht_setA, if_pos hv]; exact hInv
  cases hp : probeStartA o t with
  | none => simp only [ht_setA, if_neg hv, hp]; exact hInv
  | some t1 =>
    obtain ⟨hInv1, -, -⟩ := invS_probeStart hInv hp
    cases hpr : ht_probe t1.entries t1.capacity key with
    | foundAt i =>
      rw [ht_setA_found hv hp hpr]
      refine invS_update hInv1 (List.length_set ..) ?_
      intro j k hk
      by_cases hij : i = j
      · subst hij
        by_cases hi : i < t1.entries.length
        · rw [getD_set_self hi] at hk
          exact hInv1.home i k hk
        · rw [List.set_eq_of_length_le (Nat.le_of_not_lt hi)] at hk
          exact hInv1.home i k hk
      · rw [getD_set_ne _ _ _ hij] at hk
        exact hInv1.home j k hk
    | full =>
      rw [ht_setA_full hv hp hpr]
      exact hInv1
    | empty =>
      cases hsd : o.strdupFails
      · rw [ht_setA_insert hv hp hpr hsd]
        refine invS_update hInv1 (List.length_set ..) ?_
        intro j k hk
        by_cases hij : homeIndex t1.capacity key = j
        · subst hij
          have hlt : homeIndex t1.capacity key < t1.entries.length := by
            rw [hInv1.size_eq]
            exact homeIndex_lt _ _ (capOk_pos hInv1.cap_ok)
          rw [getD_set_self hlt] at hk
          cases Option.some.inj hk
          rfl
        · rw [getD_set_ne _ _ _ hij] at hk
          exact hInv1.home j k hk
      · rw [ht_setA_nomem hv hp hpr hsd]
        exact hInv1

/-- Whatever ht_remove returns, the table is either untouched (the
not-found paths) or has had exactly its length decremented (the match
path); entries and capacity never change. -/
theorem ht_remove_cases {t t' : ht} {key : String} {fuel : Nat} {code : Int}
    (h : ht_remove t key fuel = some (t', code)) :
    (t' = t ∧ code = -1) ∨
      (t' = { t with length := sizetDec t.length } ∧ code = 0) := by
  simp only [ht_remove] at h
  cases hk : (t.entries.getD (homeIndex t.capacity key) default).key with
  | none =>
    simp only [hk, Option.some.injEq, Prod.mk.injEq] at h
    exact Or.inl ⟨h.1.symm, h.2.symm⟩
  | some k0 =>
    simp only [hk] at h
    clear hk
    induction fuel with
    | zero => exact Option.noConfusion h
    | succ fuel ih =>
      rw [ht_removeLoop] at h
      cases hk2 : (t.entries.getD (homeIndex t.capacity key) default).key with
      | none =>
        simp only [hk2, Option.some.injEq, Prod.mk.injEq] at h
        exact Or.inl ⟨h.1.symm, h.2.symm⟩
      | some k2 =>
        simp only [hk2] at h
        by_cases hkey : k2 = key
        · rw [if_pos hkey] at h
          simp only [Option.some.injEq, Prod.mk.injEq] at h
          exact Or.inr ⟨h.1.symm, h.2.symm⟩
        · rw [if_neg hkey] at h
          exact ih h

set_option maxRecDepth 4000 in
theorem invS_remove {t t' : ht} {key : String} {fuel : Nat} {code : Int}
    (hInv : InvS t) (h : ht_remove t key fuel = some (t', code)) : InvS t' := by
  obtain h1 | h2 := ht_remove_cases h
  · rw [h1.1]; exact hInv
  · rw [h2.1]
    exact ⟨hInv.size_eq, hInv.cap_ok, hInv.cap_lt,
      fun i k hk => hInv.home i k hk⟩

end HT

/-! ### Reachable tables -/

namespace HT

theorem invS_of_reach {t : ht} (h : Reach t) : InvS t := by
  induction h with
  | create => exact invS_create
  | set t o key value _ ih => exact invS_setA o t key value ih
  | remove t key fuel t' code _ hrem ih => exact invS_remove ih hrem

/-! ### Presence of a key after a successful set -/

/-- After a successful ht_set of `key`/`value`, the home slot of `key`
holds exactly `key` with `value`, and the invariant still holds. -/
theorem set_ok_home {o : AllocOracle} {t t2 : ht} {key : String}
    {value : Value} (hInv : InvS t)
    (h : ht_setA o t key value = (t2, 0)) :
    t2.entries.getD (homeIndex t2.capacity key) default = ⟨some key, value⟩ := by
  by_cases hv : value = 0
  · rw [show ht_setA o t key value = (t, -1) from by
      simp only [ht_setA, if_pos hv]] at h
    exact absurd (congrArg Prod.snd h) (by simp)
  cases hp : probeStartA o t with
  | none =>
    rw [show ht_setA o t key value = (t, -1) from by
      simp only [ht_setA, if_neg hv, hp]] at h
    exact absurd (congrArg Prod.snd h) (by simp)
  | some t1 =>
    obtain ⟨hInv1, -, -⟩ := invS_probeStart hInv hp
    have hcap1 : 0 < t1.capacity := capOk_pos hInv1.cap_ok
    cases hpr : ht_probe t1.entries t1.capacity key with
    | foundAt i =>
      obtain ⟨hkey, hilt⟩ := ht_probe_foundAt hcap1 hpr
      have hhome : homeIndex t1.capacity key = i := hInv1.home i key hkey
      rw [ht_setA_found hv hp hpr] at h
      cases congrArg Prod.fst h
      have hlen : i < t1.entries.length := hInv1.size_eq ▸ hilt
      show (t1.entries.set i _).getD (homeIndex t1.capacity key) default = _
      rw [hhome, getD_set_self hlen]
      cases hslot : t1.entries.getD i default with
      | mk k v =>
        rw [hslot] at hkey
        cases hkey
        rfl
    | full =>
      rw [ht_setA_full hv hp hpr] at h
      exact absurd (congrArg Prod.snd h) (by simp)
    | empty =>
      cases hsd : o.strdupFails
      · rw [ht_setA_insert hv hp hpr hsd] at h
        cases congrArg Prod.fst h
        have hlen : homeIndex t1.capacity key < t1.entries.length := by
          rw [hInv1.size_eq]; exact homeIndex_lt _ _ hcap1
        show (t1.entries.set _ _).getD (homeIndex t1.capacity key) default = _
        rw [getD_set_self hlen]
      · rw [ht_setA_nomem hv hp hpr hsd] at h
        exact absurd (congrArg Prod.snd h) (by simp)

/-- Setting a key that already sits at its home slot succeeds by
overwriting the value in place: the length is unchanged and the home slot
now carries the new value. -/
theorem set_overwrite {o : AllocOracle} {t t2 : ht} {key : String}
    {w value : Value} (hInv : InvS t)
    (hpres : t.entries.getD (homeIndex t.capacity key) default
      = ⟨some key, w⟩)
    (h : ht_setA o t key value = (t2, 0)) :
    t2.length = t.length ∧
      t2.entries.getD (homeIndex t2.capacity key) default
        = ⟨some key, value⟩ := by
  by_cases hv : value = 0
  · rw [show ht_setA o t key value = (t, -1) from by
      simp only [ht_setA, if_pos hv]] at h
    exact absurd (congrArg Prod.snd h) (by simp)
  cases hp : probeStartA o t with
  | none =>
    rw [show ht_setA o t key value = (t, -1) from by
      simp only [ht_setA, if_neg hv, hp]] at h
    exact absurd (congrArg Prod.snd h) (by simp)
  | some t1 =>
    obtain ⟨hInv1, hlen1, -⟩ := invS_probeStart hInv hp
    have hcap1 : 0 < t1.capacity := capOk_pos hInv1.cap_ok
    have hpres1 : t1.entries.getD (homeIndex t1.capacity key) default
        = ⟨some key, w⟩ := by
      unfold probeStartA at hp
      by_cases hc : t.capacity / 2 ≤ t.length
      · rw [if_pos hc] at hp
        obtain ⟨-, -, -, hmove⟩ := ht_expand_spec hInv hp
        have hmv := hmove (homeIndex t.capacity key) key (by rw [hpres])
        rw [hpres] at hmv
        exact hmv
      · rw [if_neg hc] at hp
        cases Option.some.inj hp
        exact hpres
    have hpr : ht_probe t1.entries t1.capacity key
        = .foundAt (homeIndex t1.capacity key) :=
      ht_probe_found_of_home hcap1 (by rw [hpres1])
    rw [ht_setA_found hv hp hpr] at h
    have ht2 := congrArg Prod.fst h
    simp only at ht2
    refine ⟨?_, ?_⟩
    · rw [← ht2, ← hlen1]
    · have hlen : homeIndex t1.capacity key < t1.entries.length := by
        rw [hInv1.size_eq]; exact homeIndex_lt _ _ hcap1
      rw [← ht2]
      show (t1.entries.set _ _).getD (homeIndex t1.capacity key) default = _
      rw [getD_set_self hlen, hpres1]

/-- When a key sits at its home slot, ht_get returns that slot's value. -/
theorem get_of_home {t : ht} {key : String} {v : Value} (hcap : 0 < t.capacity)
    (hpres : t.entries.getD (homeIndex t.capacity key) default
      = ⟨some key, v⟩) :
    ht_get t key = some v := by
  have hpr : ht_probe t.entries t.capacity key
      = .foundAt (homeIndex t.capacity key) :=
    ht_probe_found_of_home hcap (by rw [hpres])
  simp only [ht_get, hpr, hpres]

end HT

/-! ### The ht_remove scan loop -/

namespace HT

/-- The remove scan loop never terminates when the examined slot is
occupied by a non-matching key: its body never advances the index
(src/ht.c:232-239 has no increment), so the same slot is re-examined for
every fuel step. -/
theorem ht_removeLoop_spin {t : ht} {key k0 : String} {index : Nat}
    (hk : (t.entries.getD index default).key = some k0) (hne : k0 ≠ key) :
    ∀ fuel, ht_removeLoop t key index fuel = none := by
  intro fuel
  induction fuel with
  | zero => rfl
  | succ fuel ih =>
    rw [ht_removeLoop]
    simp only [hk, if_neg hne]
    exact ih

/-- ht_remove diverges whenever the home slot is occupied by a key other
than the one being removed. -/
theorem ht_remove_diverges_of_mismatch {t : ht} {key : String}
    (k0 : String)
    (hk : (t.entries.getD (homeIndex t.capacity key) default).key = some k0)
    (hne : k0 ≠ key) : ht_removeDiverges t key := by
  intro fuel
  simp only [ht_remove, hk]
  exact ht_removeLoop_spin hk hne fuel

/-- ht_remove with a matching home slot succeeds at the first iteration:
length is decremented (size_t wrap-around at 0) and nothing else changes. -/
theorem ht_remove_match {t : ht} {key : String}
    (hk : (t.entries.getD (homeIndex t.capacity key) default).key = some key)
    {fuel : Nat} (hf : 0 < fuel) :
    ht_remove t key fuel
      = some ({ t with length := sizetDec t.length }, 0) := by
  cases fuel with
  | zero => exact absurd hf (by simp)
  | succ fuel =>
    simp only [ht_remove, hk, ht_removeLoop, if_pos rfl]
    rfl

/-- ht_remove with an empty home slot fails immediately with -1 and leaves
the table untouched. -/
theorem ht_remove_absent {t : ht} {key : String} {fuel : Nat}
    (hk : (t.entries.getD (homeIndex t.capacity key) default).key = none) :
    ht_remove t key fuel = some (t, -1) := by
  simp only [ht_remove, hk]

end HT

/-! ## The claims -/

namespace HT

/-- C1 (code_bug): the claim states that after set(k,v) returns Ok, a later
get(k) with no intervening remove(k) or set(k,v') returns v.  The code
violates this: ht_set_entry writes a fresh insertion at `entries[index]` —
the home slot — instead of the empty slot `entries[i]` its probe loop just
found (src/ht.c:135-136), so inserting a second, different key whose hash
collides on the home slot silently overwrites the first entry.  Concretely
"a" and "ah" both have home slot 12 at capacity 16: after set("a",1) = Ok
and set("ah",2) = Ok, get("a") is NotFound (the claim requires 1), while
get("ah") = 2 and length = 2. -/
theorem C1_insert_overwrites_home_slot :
    (ht_set ht_create "a" 1).2 = 0 ∧
    (ht_set (ht_set ht_create "a" 1).1 "ah" 2).2 = 0 ∧
    homeIndex 16 "a" = 12 ∧ homeIndex 16 "ah" = 12 ∧
    ht_get (ht_set (ht_set ht_create "a" 1).1 "ah" 2).1 "a" = none ∧
    ht_get (ht_set (ht_set ht_create "a" 1).1 "ah" 2).1 "ah" = some 2 ∧
    (ht_set (ht_set ht_create "a" 1).1 "ah" 2).1.length = 2 := by
  decide

/-- C2 (code_bug): the claim states that when the starting slot is
occupied, remove scans forward comparing keys and terminates.  The scan
loop of ht_remove never advances its index (src/ht.c:232-239 contains no
increment or wrap of `index`), so whenever the starting slot is occupied
by a non-matching key the call loops forever.  Concretely, after
set("a",1), the key "ah" has the same home slot as "a"; remove on "ah"
re-examines that slot forever: the fueled loop returns for no fuel value.
When the starting slot itself matches, the call does succeed, decrementing
length — the second conjunct shows that one-slot behavior. -/
theorem C2_remove_scan_diverges :
    ht_removeDiverges (ht_set ht_create "a" 1).1 "ah" ∧
    ht_remove (ht_set ht_create "a" 1).1 "a" 1 =
      some ({ (ht_set ht_create "a" 1).1 with length := 0 }, 0) := by
  constructor
  · exact ht_remove_diverges_of_mismatch "a" (by decide) (by decide)
  · decide

/-- C3 (code_bug): the claim states that for a key inserted once with no
colliding neighbors, remove(k) = Ok followed by get(k) returns NotFound.
ht_remove frees the key string but does not clear the slot's key pointer
(src/ht.c:234 has no `= NULL`), so the slot stays occupied from the
table's point of view and the following get still finds it (reading the
freed key bytes, which the model keeps): after set("a",1) and a successful
remove("a"), get("a") returns the stale value 1, not NotFound. -/
theorem C3_get_after_remove_finds_stale_entry :
    (ht_set ht_create "a" 1).2 = 0 ∧
    ht_remove (ht_set ht_create "a" 1).1 "a" 1 =
      some ({ (ht_set ht_create "a" 1).1 with length := 0 }, 0) ∧
    ht_get ({ (ht_set ht_create "a" 1).1 with length := 0 }) "a"
      = some 1 := by
  decide

end HT

/-! ### Remaining claims -/

namespace HT

/-- C4 (code_bug): the claim states that N successful distinct-key
insertions give length N, and that growth preserves length and keeps every
previously inserted key retrievable with its original value.  The length
and growth-preserves-length parts do hold on this run, but retrievability
fails, again because ht_set_entry writes fresh insertions at the home slot
(src/ht.c:135): the nine distinct keys a, ah, b, c, d, e, f, g, h are all
inserted with result Ok (length reaches exactly 9, growth to capacity 32
is triggered at the start of the 9th insertion when length = 8 = 16/2),
yet get("a") is NotFound at the end — "ah" overwrote "a"'s home slot. -/
theorem C4_growth_scenario_loses_overwritten_key :
    (ht_set ht_create "a" 1).2 = 0 ∧
    (ht_set (ht_set ht_create "a" 1).1 "ah" 2).2 = 0 ∧
    (ht_set (ht_set (ht_set ht_create "a" 1).1 "ah" 2).1 "b" 3).2 = 0 ∧
    (ht_set (ht_set (ht_set (ht_set ht_create "a" 1).1 "ah" 2).1 "b" 3).1 "c" 4).2 = 0 ∧
    (ht_set (ht_set (ht_set (ht_set (ht_set ht_create "a" 1).1 "ah" 2).1 "b" 3).1 "c" 4).1 "d" 5).2 = 0 ∧
    (ht_set (ht_set (ht_set (ht_set (ht_set (ht_set ht_create "a" 1).1 "ah" 2).1 "b" 3).1 "c" 4).1 "d" 5).1 "e" 6).2 = 0 ∧
    (ht_set (ht_set (ht_set (ht_set (ht_set (ht_set (ht_set ht_create "a" 1).1 "ah" 2).1 "b" 3).1 "c" 4).1 "d" 5).1 "e" 6).1 "f" 7).2 = 0 ∧
    (ht_set (ht_set (ht_set (ht_set (ht_set (ht_set (ht_set (ht_set ht_create "a" 1).1 "ah" 2).1 "b" 3).1 "c" 4).1 "d" 5).1 "e" 6).1 "f" 7).1 "g" 8).2 = 0 ∧
    (ht_set (ht_set (ht_set (ht_set (ht_set (ht_set (ht_set (ht_set (ht_set ht_create "a" 1).1 "ah" 2).1 "b" 3).1 "c" 4).1 "d" 5).1 "e" 6).1 "f" 7).1 "g" 8).1 "h" 9).2 = 0 ∧
    ht_length (ht_set (ht_set (ht_set (ht_set (ht_set (ht_set (ht_set (ht_set ht_create "a" 1).1 "ah" 2).1 "b" 3).1 "c" 4).1 "d" 5).1 "e" 6).1 "f" 7).1 "g" 8).1 = 8 ∧
    (ht_set (ht_set (ht_set (ht_set (ht_set (ht_set (ht_set (ht_set ht_create "a" 1).1 "ah" 2).1 "b" 3).1 "c" 4).1 "d" 5).1 "e" 6).1 "f" 7).1 "g" 8).1.capacity = 16 ∧
    ht_length (ht_set (ht_set (ht_set (ht_set (ht_set (ht_set (ht_set (ht_set (ht_set ht_create "a" 1).1 "ah" 2).1 "b" 3).1 "c" 4).1 "d" 5).1 "e" 6).1 "f" 7).1 "g" 8).1 "h" 9).1 = 9 ∧
    (ht_set (ht_set (ht_set (ht_set (ht_set (ht_set (ht_set (ht_set (ht_set ht_create "a" 1).1 "ah" 2).1 "b" 3).1 "c" 4).1 "d" 5).1 "e" 6).1 "f" 7).1 "g" 8).1 "h" 9).1.capacity = 32 ∧
    ht_get (ht_set (ht_set (ht_set (ht_set (ht_set (ht_set (ht_set (ht_set (ht_set ht_create "a" 1).1 "ah" 2).1 "b" 3).1 "c" 4).1 "d" 5).1 "e" 6).1 "f" 7).1 "g" 8).1 "h" 9).1 "a" = none ∧
    ht_get (ht_set (ht_set (ht_set (ht_set (ht_set (ht_set (ht_set (ht_set (ht_set ht_create "a" 1).1 "ah" 2).1 "b" 3).1 "c" 4).1 "d" 5).1 "e" 6).1 "f" 7).1 "g" 8).1 "h" 9).1 "ah" = some 2 ∧
    ht_get (ht_set (ht_set (ht_set (ht_set (ht_set (ht_set (ht_set (ht_set (ht_set ht_create "a" 1).1 "ah" 2).1 "b" 3).1 "c" 4).1 "d" 5).1 "e" 6).1 "f" 7).1 "g" 8).1 "h" 9).1 "h" = some 9 := by
  decide

/-- C5 (confirmed): the home-slot invariant.  In every table reachable
from ht_create by set, remove and the grows they trigger, every occupied
slot `i` holds a key whose home index for the current capacity is exactly
`i`: fresh insertions are written at `entries[index]` (src/ht.c:135), and
growth re-inserts each key at its home for the doubled capacity. -/
theorem C5_home_slot_invariant (t : ht) (i : Nat) (k : String)
    (hR : Reach t) (hk : (t.entries.getD i default).key = some k) :
    homeIndex t.capacity k = i :=
  (invS_of_reach hR).home i k hk

theorem C5_home_slot_invariant_witness :
    ((ht_set ht_create "a" 1).1.entries.getD 12 default).key = some "a" ∧
    homeIndex (ht_set ht_create "a" 1).1.capacity "a" = 12 :=
  ⟨by decide, C5_home_slot_invariant _ 12 "a"
    (Reach.set ht_create allocOk "a" 1 Reach.create) (by decide)⟩

/-- C6 (code_bug): the claim states that in every reachable table, length
≤ capacity/2 holds at the start of every insertion's probe phase.  The
remove defect breaks it: ht_remove does not clear the slot it frees, so
the same key can be removed twice; the second successful remove decrements
`length` (a size_t) from 0, wrapping to 2^64 - 1 (src/ht.c:235).  A
subsequent insertion expands once (to capacity 32) and then starts its
probe phase with length 2^64 - 1 > 16 = capacity/2.  The capacity itself
is still a power of two throughout. -/
theorem C6_load_factor_broken_by_length_underflow :
    (ht_set ht_create "a" 1).2 = 0 ∧
    ht_remove (ht_set ht_create "a" 1).1 "a" 1
      = some ({ (ht_set ht_create "a" 1).1 with length := 0 }, 0) ∧
    ht_remove ({ (ht_set ht_create "a" 1).1 with length := 0 }) "a" 1
      = some ({ (ht_set ht_create "a" 1).1 with length := W64 - 1 }, 0) ∧
    Reach ({ (ht_set ht_create "a" 1).1 with length := W64 - 1 }) ∧
    probePhaseOverload allocOk
      ({ (ht_set ht_create "a" 1).1 with length := W64 - 1 }) = true := by
  refine ⟨by decide, by decide, by decide, ?_, by decide⟩
  exact Reach.remove ({ (ht_set ht_create "a" 1).1 with length := 0 }) "a" 1
    ({ (ht_set ht_create "a" 1).1 with length := W64 - 1 }) 0
    (Reach.remove ((ht_set ht_create "a" 1).1) "a" 1
      ({ (ht_set ht_create "a" 1).1 with length := 0 }) 0
      (Reach.set ht_create allocOk "a" 1 Reach.create) (by decide))
    (by decide)

end HT

namespace HT

theorem ht_expandA_length {o : AllocOracle} {t t' : ht}
    (h : ht_expandA o t = some t') : t'.length = t.length := by
  simp only [ht_expandA] at h
  by_cases h1 : t.capacity * 2 % W64 < t.capacity
  · rw [if_pos h1] at h
    exact Option.noConfusion h
  · rw [if_neg h1] at h
    cases hc : o.callocFails
    · rw [hc] at h
      simp only [Bool.false_eq_true, if_false] at h
      cases Option.some.inj h
      rfl
    · rw [hc] at h
      simp only [if_true] at h
      exact Option.noConfusion h

/-- C7, amended (corrected): when ht_set fails, the length and the stored
entries are untouched — no insertion or overwrite is partially applied —
but the table is NOT always exactly as it was: it is either unchanged or
exactly the result of a completed grow, because the grow commits before
the insertion can still fail (key-copy allocation failure, or the
defensive full-table probe failure).  The original claim, that every
failing set leaves entries, capacity and length exactly as before, is
refuted by `C7_grow_survives_failed_set`. -/
theorem C7_failed_set_leaves_length_and_is_grow_or_identity
    (o : AllocOracle) (t : ht) (key : String) (value : Value)
    (t' : ht) (r : Int)
    (h : ht_setA o t key value = (t', r)) (hr : r ≠ 0) :
    t'.length = t.length ∧ (t' = t ∨ ht_expandA o t = some t') := by
  by_cases hv : value = 0
  · rw [show ht_setA o t key value = (t, -1) from by
      simp only [ht_setA, if_pos hv]] at h
    injection h with h1 h2
    exact ⟨by rw [← h1], Or.inl h1.symm⟩
  cases hp : probeStartA o t with
  | none =>
    rw [show ht_setA o t key value = (t, -1) from by
      simp only [ht_setA, if_neg hv, hp]] at h
    injection h with h1 h2
    exact ⟨by rw [← h1], Or.inl h1.symm⟩
  | some t1 =>
    have hps : t1 = t ∨ ht_expandA o t = some t1 := by
      unfold probeStartA at hp
      by_cases hc : t.capacity / 2 ≤ t.length
      · rw [if_pos hc] at hp
        exact Or.inr hp
      · rw [if_neg hc] at hp
        exact Or.inl (Option.some.inj hp).symm
    have hlen1 : t1.length = t.length := by
      rcases hps with rfl | hexp
      · rfl
      · exact ht_expandA_length hexp
    cases hpr : ht_probe t1.entries t1.capacity key with
    | foundAt i =>
      rw [ht_setA_found hv hp hpr] at h
      injection h with h1 h2
      exact absurd h2.symm hr
    | full =>
      rw [ht_setA_full hv hp hpr] at h
      injection h with h1 h2
      subst h1
      exact ⟨hlen1, hps⟩
    | empty =>
      cases hsd : o.strdupFails
      · rw [ht_setA_insert hv hp hpr hsd] at h
        injection h with h1 h2
        exact absurd h2.symm hr
      · rw [ht_setA_nomem hv hp hpr hsd] at h
        injection h with h1 h2
        subst h1
        exact ⟨hlen1, hps⟩

theorem C7_failed_set_witness :
    ht_setA allocOk ht_create "a" 0 = (ht_create, -1) ∧
    ht_create.length = ht_create.length ∧
    (ht_create = ht_create ∨ ht_expandA allocOk ht_create = some ht_create) :=
  ⟨by decide,
    C7_failed_set_leaves_length_and_is_grow_or_identity allocOk ht_create
      "a" 0 ht_create (-1) (by decide) (by decide)⟩

/-- C7, counterexample: a set call that fails and still leaves the table
changed.  On the reachable 8-entry table (keys a, ah, b, c, d, e, f, g;
length 8 = capacity/2), a set of the fresh key "z" first grows the table
to capacity 32 and only then tries to strdup the key; when that allocation
fails, set returns -1 (OutOfMemory) but the grow has already committed:
the resulting table differs from the original (capacity 32 instead of 16),
refuting "the table's visible state is exactly what it was before the
call". -/
theorem C7_grow_survives_failed_set :
    let t8 := (ht_set (ht_set (ht_set (ht_set (ht_set (ht_set (ht_set
      (ht_set ht_create "a" 1).1 "ah" 2).1 "b" 3).1 "c" 4).1 "d" 5).1
      "e" 6).1 "f" 7).1 "g" 8).1
    let s := ht_setA ⟨false, true⟩ t8 "z" 9
    ht_length t8 = 8 ∧ t8.capacity = 16 ∧
    s.2 = -1 ∧ s.1.capacity = 32 ∧ s.1 ≠ t8 ∧
    ht_expandA ⟨false, true⟩ t8 = some s.1 := by
  decide

/-- C8 (code_bug): the scenario claim.  Everything up to the removal
behaves as stated: after set("a",1), set("b",2), set("c",3) the length is
3 and get("b") = 2, and remove("a") succeeds leaving length 2.  But
because ht_remove does not clear the slot's key pointer (src/ht.c:234),
get("a") afterwards returns the stale value 1 instead of NotFound, and a
fresh cursor yields the removed entry "a" as well: it produces ("c",3),
("b",2), ("a",1) and only then reports exhausted — not "exactly
{"b":2,"c":3}" as the claim requires. -/
theorem C8_scenario_cursor_sees_removed_entry :
    (ht_set ht_create "a" 1).2 = 0 ∧
    (ht_set (ht_set ht_create "a" 1).1 "b" 2).2 = 0 ∧
    (ht_set (ht_set (ht_set ht_create "a" 1).1 "b" 2).1 "c" 3).2 = 0 ∧
    ht_length (ht_set (ht_set (ht_set ht_create "a" 1).1 "b" 2).1 "c" 3).1 = 3 ∧
    ht_get (ht_set (ht_set (ht_set ht_create "a" 1).1 "b" 2).1 "c" 3).1 "b" = some 2 ∧
    ht_remove (ht_set (ht_set (ht_set ht_create "a" 1).1 "b" 2).1 "c" 3).1 "a" 1 = some (({ (ht_set (ht_set (ht_set ht_create "a" 1).1 "b" 2).1 "c" 3).1 with length := 2 } : ht), 0) ∧
    ht_get ({ (ht_set (ht_set (ht_set ht_create "a" 1).1 "b" 2).1 "c" 3).1 with length := 2 } : ht) "a" = some 1 ∧
    ht_length ({ (ht_set (ht_set (ht_set ht_create "a" 1).1 "b" 2).1 "c" 3).1 with length := 2 } : ht) = 2 ∧
    (ht_next ({ (ht_set (ht_set (ht_set ht_create "a" 1).1 "b" 2).1 "c" 3).1 with length := 2 } : ht) ht_iterator).2 = true ∧
    (ht_next ({ (ht_set (ht_set (ht_set ht_create "a" 1).1 "b" 2).1 "c" 3).1 with length := 2 } : ht) ht_iterator).1.key = some "c" ∧
    (ht_next ({ (ht_set (ht_set (ht_set ht_create "a" 1).1 "b" 2).1 "c" 3).1 with length := 2 } : ht) ht_iterator).1.value = 3 ∧
    (ht_next ({ (ht_set (ht_set (ht_set ht_create "a" 1).1 "b" 2).1 "c" 3).1 with length := 2 } : ht) (ht_next ({ (ht_set (ht_set (ht_set ht_create "a" 1).1 "b" 2).1 "c" 3).1 with length := 2 } : ht) ht_iterator).1).2 = true ∧
    (ht_next ({ (ht_set (ht_set (ht_set ht_create "a" 1).1 "b" 2).1 "c" 3).1 with length := 2 } : ht) (ht_next ({ (ht_set (ht_set (ht_set ht_create "a" 1).1 "b" 2).1 "c" 3).1 with length := 2 } : ht) ht_iterator).1).1.key = some "b" ∧
    (ht_next ({ (ht_set (ht_set (ht_set ht_create "a" 1).1 "b" 2).1 "c" 3).1 with length := 2 } : ht) (ht_next ({ (ht_set (ht_set (ht_set ht_create "a" 1).1 "b" 2).1 "c" 3).1 with length := 2 } : ht) ht_iterator).1).1.value = 2 ∧
    (ht_next ({ (ht_set (ht_set (ht_set ht_create "a" 1).1 "b" 2).1 "c" 3).1 with length := 2 } : ht) (ht_next ({ (ht_set (ht_set (ht_set ht_create "a" 1).1 "b" 2).1 "c" 3).1 with length := 2 } : ht) (ht_next ({ (ht_set (ht_set (ht_set ht_create "a" 1).1 "b" 2).1 "c" 3).1 with length := 2 } : ht) ht_iterator).1).1).2 = true ∧
    (ht_next ({ (ht_set (ht_set (ht_set ht_create "a" 1).1 "b" 2).1 "c" 3).1 with length := 2 } : ht) (ht_next ({ (ht_set (ht_set (ht_set ht_create "a" 1).1 "b" 2).1 "c" 3).1 with length := 2 } : ht) (ht_next ({ (ht_set (ht_set (ht_set ht_create "a" 1).1 "b" 2).1 "c" 3).1 with length := 2 } : ht) ht_iterator).1).1).1.key = some "a" ∧
    (ht_next ({ (ht_set (ht_set (ht_set ht_create "a" 1).1 "b" 2).1 "c" 3).1 with length := 2 } : ht) (ht_next ({ (ht_set (ht_set (ht_set ht_create "a" 1).1 "b" 2).1 "c" 3).1 with length := 2 } : ht) (ht_next ({ (ht_set (ht_set (ht_set ht_create "a" 1).1 "b" 2).1 "c" 3).1 with length := 2 } : ht) ht_iterator).1).1).1.value = 1 ∧
    (ht_next ({ (ht_set (ht_set (ht_set ht_create "a" 1).1 "b" 2).1 "c" 3).1 with length := 2 } : ht) (ht_next ({ (ht_set (ht_set (ht_set ht_create "a" 1).1 "b" 2).1 "c" 3).1 with length := 2 } : ht) (ht_next ({ (ht_set (ht_set (ht_set ht_create "a" 1).1 "b" 2).1 "c" 3).1 with length := 2 } : ht) (ht_next ({ (ht_set (ht_set (ht_set ht_create "a" 1).1 "b" 2).1 "c" 3).1 with length := 2 } : ht) ht_iterator).1).1).1).2 = false := by
  decide

/-- C9 (confirmed): overwriting a key.  For every reachable table, if
set(k,v1) succeeds and then set(k,v2) succeeds, get(k) returns v2 and the
length after the second set equals the length after the first: the second
set finds k at its home slot (possibly relocated by an intervening grow)
and overwrites the value in place. -/
theorem C9_set_overwrite_get (t t1 t2 : ht) (key : String) (v1 v2 : Value)
    (hR : Reach t) (h1 : ht_set t key v1 = (t1, 0))
    (h2 : ht_set t1 key v2 = (t2, 0)) :
    ht_get t2 key = some v2 ∧ t2.length = t1.length := by
  have hInv : InvS t := invS_of_reach hR
  have hInv1 : InvS t1 := by
    have hx := invS_setA allocOk t key v1 hInv
    rw [show ht_setA allocOk t key v1 = ht_set t key v1 from rfl, h1] at hx
    exact hx
  have hInv2 : InvS t2 := by
    have hx := invS_setA allocOk t1 key v2 hInv1
    rw [show ht_setA allocOk t1 key v2 = ht_set t1 key v2 from rfl, h2] at hx
    exact hx
  have hpres1 := set_ok_home hInv h1
  obtain ⟨hlen, hpres2⟩ := set_overwrite hInv1 hpres1 h2
  exact ⟨get_of_home (capOk_pos hInv2.cap_ok) hpres2, hlen⟩

theorem C9_set_overwrite_get_witness :
    ht_set ht_create "a" 1 = ((ht_set ht_create "a" 1).1, 0) ∧
    ht_set (ht_set ht_create "a" 1).1 "a" 2
      = ((ht_set (ht_set ht_create "a" 1).1 "a" 2).1, 0) ∧
    ht_get (ht_set (ht_set ht_create "a" 1).1 "a" 2).1 "a" = some 2 ∧
    (ht_set (ht_set ht_create "a" 1).1 "a" 2).1.length
      = (ht_set ht_create "a" 1).1.length :=
  ⟨by decide, by decide,
    C9_set_overwrite_get ht_create (ht_set ht_create "a" 1).1
      (ht_set (ht_set ht_create "a" 1).1 "a" 2).1 "a" 1 2
      Reach.create (by decide) (by decide)⟩

/-- C10, amended (corrected): the frame of a successful remove.  Entries
and capacity are bit-for-bit unchanged — including the matching slot's key
pointer and value, so the slot stays occupied — and only `length` changes,
by a size_t decrement: `length - 1` whenever `length ≥ 1`, wrapping to
2^64 - 1 when `length = 0` (which `C10_length_underflow` shows reachable,
refuting the unconditional "decreases by one"). -/
theorem C10_remove_frame (t : ht) (key : String) (fuel : Nat) (t' : ht)
    (h : ht_remove t key fuel = some (t', 0)) (hw : t.length < W64) :
    t'.entries = t.entries ∧ t'.capacity = t.capacity ∧
    t'.length = sizetDec t.length ∧
    (1 ≤ t.length → t'.length = t.length - 1) := by
  obtain hcase | hcase := ht_remove_cases h
  · exact absurd hcase.2 (by decide)
  · obtain ⟨rfl, -⟩ := hcase
    refine ⟨rfl, rfl, rfl, fun h1 => ?_⟩
    show sizetDec t.length = t.length - 1
    have hW : W64 = 18446744073709551616 := rfl
    unfold sizetDec
    rw [hW]
    rw [hW] at hw
    omega

theorem C10_remove_frame_witness :
    ht_remove (ht_set ht_create "a" 1).1 "a" 1
      = some ({ (ht_set ht_create "a" 1).1 with length := 0 }, 0) ∧
    (ht_set ht_create "a" 1).1.length < W64 ∧
    ({ (ht_set ht_create "a" 1).1 with length := 0 }).length
      = (ht_set ht_create "a" 1).1.length - 1 :=
  ⟨by decide, by decide,
    (C10_remove_frame (ht_set ht_create "a" 1).1 "a" 1
      ({ (ht_set ht_create "a" 1).1 with length := 0 }) (by decide)
      (by decide)).2.2.2 (by decide)⟩

/-- C10, counterexample: a successful remove whose length does not
decrease.  Removing "a" twice succeeds both times (the slot is never
cleared), and the second removal decrements length from 0: the size_t
wraps to 2^64 - 1, an increase — refuting "length decreases by one" as
stated. -/
theorem C10_length_underflow :
    ht_remove ({ (ht_set ht_create "a" 1).1 with length := 0 }) "a" 1
      = some ({ (ht_set ht_create "a" 1).1 with length := W64 - 1 }, 0) ∧
    ({ (ht_set ht_create "a" 1).1 with length := 0 }).length = 0 ∧
    ({ (ht_set ht_create "a" 1).1 with length := W64 - 1 }).length
      > ({ (ht_set ht_create "a" 1).1 with length := 0 }).length := by
  decide

end HT
